import Mathlib

/-!
Verification of the GeneScanner peak-cleaning pipeline
(src/genescanner/genescanner.py, version 1.0.1).

The program reads a GeneScan datasheet, groups each sample's size-sorted
peaks into clusters ("mountain ranges") of peaks within `peak_gap` of each
other, removes artefact peaks inside each cluster, computes for each
surviving peak its percentage of the sample's total area, and filters by a
percentage threshold.

The embedding below follows the Python source function by function:
  - `findPeakCluster`, `findMountainRangesSample` : the cluster builder,
  - `cleanMountainRanges` / `cleanCluster`        : the cluster resolver,
  - `RemoveArtefacts`                             : dropping removed rows,
  - `AddPercentage`                               : percentage computation,
  - `filterAreaPercent`                           : threshold filter + sort,
  - `loadDf`                                      : input loading / schema check.

Numeric columns (`Size`, `Area`, ...) are modelled with `ℚ`; the claims
settled here concern comparisons and exact rational identities.  A sample's
rows are modelled by their position `0, 1, ..., n-1` in the sample's
size-sorted dataframe slice (pandas keeps a contiguous integer index per
sample because `loadDf` sorts by sample name then size and resets the index).
-/

namespace GeneScanner

/-- Source: `findPeakCluster(index, build_list, df, peak_gap)`.

    Python:
    ```
    if index == max(df.index):
        return list(set(build_list))
    elif df.loc[index + 1, "Size"] - df.loc[index, "Size"] > peak_gap:
        return list(set(build_list))
    else:
        build_list += [index, index + 1]
        return findPeakCluster(index + 1, build_list, df, peak_gap)
    ```
    `sizes` is the sample's `Size` column (row `i` of the sample slice has
    size `sizes.getD i 0`); the sample's index runs `0 .. sizes.length - 1`,
    so `index == max(df.index)` is `index = sizes.length - 1`, written
    `sizes.length ≤ index + 1` (identical for every in-range `index`, and
    total so the recursion is well founded; Python raises a `KeyError` on an
    out-of-range index and is never called with one).  `list(set(...))` is
    modelled by `List.dedup`; the build lists produced here have their
    duplicates adjacent, so deduplication is order-preserving. -/
def findPeakCluster (sizes : List ℚ) (peak_gap : ℚ) (index : ℕ) (build_list : List ℕ) :
    List ℕ :=
  if sizes.length ≤ index + 1 then build_list.dedup
  else if sizes.getD (index + 1) 0 - sizes.getD index 0 > peak_gap then build_list.dedup
  else findPeakCluster sizes peak_gap (index + 1) (build_list ++ [index, index + 1])
termination_by sizes.length - index
decreasing_by omega

/-- Fuel-indexed copy of `findPeakCluster`: performs exactly the same case
    analysis but burns one unit of fuel per recursive call and answers `none`
    when the fuel runs out.  Used to state that the Python recursion's depth
    is bounded by the number of peaks of the sample (claim C10). -/
def findPeakClusterFuel (fuel : ℕ) (sizes : List ℚ) (peak_gap : ℚ) (index : ℕ)
    (build_list : List ℕ) : Option (List ℕ) :=
  match fuel with
  | 0 => none
  | f + 1 =>
    if sizes.length ≤ index + 1 then some build_list.dedup
    else if sizes.getD (index + 1) 0 - sizes.getD index 0 > peak_gap then some build_list.dedup
    else findPeakClusterFuel f sizes peak_gap (index + 1) (build_list ++ [index, index + 1])

/-- The trail of indices `findPeakCluster` appends to `build_list` before
    deduplicating: `[index, index+1, index+1, index+2, ...]` up to the first
    stopping row.  Proof device for the characterization of
    `findPeakCluster`. -/
def pathList (sizes : List ℚ) (peak_gap : ℚ) (index : ℕ) : List ℕ :=
  if sizes.length ≤ index + 1 then []
  else if sizes.getD (index + 1) 0 - sizes.getD index 0 > peak_gap then []
  else index :: (index + 1) :: pathList sizes peak_gap (index + 1)
termination_by sizes.length - index
decreasing_by omega

/-- Number of steps the walk of `findPeakCluster` takes before stopping when
    started at `index`.  Proof device. -/
def clusterLen (sizes : List ℚ) (peak_gap : ℚ) (index : ℕ) : ℕ :=
  if sizes.length ≤ index + 1 then 0
  else if sizes.getD (index + 1) 0 - sizes.getD index 0 > peak_gap then 0
  else clusterLen sizes peak_gap (index + 1) + 1
termination_by sizes.length - index
decreasing_by omega

/-- The row at which the walk of `findPeakCluster` started from `index`
    stops: the first `j ≥ index` that is either the sample's last row or
    farther than `peak_gap` from its successor. -/
def clusterEnd (sizes : List ℚ) (peak_gap : ℚ) (index : ℕ) : ℕ :=
  index + clusterLen sizes peak_gap index

/-- Row `k` of the sample stops the cluster walk: it is the last row, or its
    successor is farther than `peak_gap` above it. -/
def isStop (sizes : List ℚ) (peak_gap : ℚ) (k : ℕ) : Prop :=
  sizes.length ≤ k + 1 ∨ sizes.getD (k + 1) 0 - sizes.getD k 0 > peak_gap

instance (sizes : List ℚ) (peak_gap : ℚ) (k : ℕ) :
    Decidable (isStop sizes peak_gap k) := by
  unfold isStop; infer_instance

/-- Reference model of the per-sample scan of `findMountainRanges`: walk the
    rows from `i` upward; a stopping row that starts its own walk yields the
    empty cluster (later filtered out), any other row starts a cluster that
    runs to `clusterEnd`, and the scan resumes after it.  Proof device for
    the characterization of `findMountainRangesSample`. -/
def scanRanges (sizes : List ℚ) (peak_gap : ℚ) (i : ℕ) : List (List ℕ) :=
  if sizes.length ≤ i then []
  else if isStop sizes peak_gap i then [] :: scanRanges sizes peak_gap (i + 1)
  else (pathList sizes peak_gap i).dedup ::
    scanRanges sizes peak_gap (i + clusterLen sizes peak_gap i + 1)
termination_by sizes.length - i
decreasing_by all_goals omega

/-- Source: `findMountainRanges(df, sample_names, peak_gap)`, restricted to
    one sample (the body of its outer loop for a single sample name; samples
    occupy disjoint contiguous index ranges of the sorted dataframe, so the
    per-sample runs never interact).

    Python:
    ```
    for index, row in dfSample.iterrows():
        if index in chain(*mountain_ranges):
            pass
        else:
            mountain_ranges += [findPeakCluster(index, [], dfSample, peak_gap)]
    mountain_ranges = [x for x in mountain_ranges if x != []]
    ```
    `iterrows` enumerates the sample's rows `0, 1, ..., n-1` in order and
    `chain(*acc)` flattens the clusters accumulated so far. -/
def findMountainRangesSample (sizes : List ℚ) (peak_gap : ℚ) : List (List ℕ) :=
  ((List.range sizes.length).foldl
    (fun acc index =>
      if index ∈ acc.flatten then acc
      else acc ++ [findPeakCluster sizes peak_gap index []])
    []).filter (fun x => !x.isEmpty)

/-- Python's `max(lst)` on a nonempty list of floats (first argument wins
    ties, which for numbers returns the maximum value).  Returns `0` on the
    empty list, on which Python raises; all uses are on nonempty lists. -/
def listMax : List ℚ → ℚ
  | [] => 0
  | x :: xs => xs.foldl max x

/-- Python's `lst.index(max(lst))` applied to the areas of the rows of a
    cluster: the position in `mountains` of the first row achieving the
    cluster's maximum area.  `area i` is the `Area` entry of dataframe row
    `i` (`df.loc[i, "Area"]`). -/
def maxAreaIdx (area : ℕ → ℚ) (mountains : List ℕ) : ℕ :=
  (mountains.map area).indexOf (listMax (mountains.map area))

/-- Per-cluster body of `cleanMountainRanges`: the indices the resolver
    contributes to the remove list for one cluster.

    Python:
    ```
    if len(mountains) == 2:
        a = df.loc[mountains[0], "Area"]
        b = df.loc[mountains[1], "Area"]
        if a > b: remove += [[mountains[1]]]
        elif b > a: remove += [[mountains[0]]]
        elif a == b: pass
    elif len(mountains) > 2 and len(mountains) <= cluster_size:
        lst = [df.loc[mountains[i], "Area"] for i in range(len(mountains))]
        mountains.pop(lst.index(max(lst)))
        remove += [mountains]
    ```
    `mountains.pop(p)` removes the entry at position `p`, so the appended
    list is `mountains.eraseIdx p`. -/
def cleanCluster (area : ℕ → ℚ) (cluster_size : ℕ) (mountains : List ℕ) : List ℕ :=
  if mountains.length = 2 then
    let a := area (mountains.getD 0 0)
    let b := area (mountains.getD 1 0)
    if a > b then [mountains.getD 1 0]
    else if b > a then [mountains.getD 0 0]
    else []
  else if 2 < mountains.length ∧ mountains.length ≤ cluster_size then
    mountains.eraseIdx (maxAreaIdx area mountains)
  else []

/-- Source: `cleanMountainRanges(df, mountain_ranges, cluster_size)`: the
    flattened (`list(chain(*remove))`) concatenation of every cluster's
    contribution. -/
def cleanMountainRanges (area : ℕ → ℚ) (cluster_size : ℕ)
    (mountain_ranges : List (List ℕ)) : List ℕ :=
  (mountain_ranges.map (cleanCluster area cluster_size)).flatten

/-- Source: `RemoveArtefacts(df, remove)`, i.e.
    `df.drop(labels = remove, axis = 0)`: keeps exactly the rows of `df`
    whose index label is not listed in `remove`.  A dataframe is represented
    by the list of its row labels (the other columns are untouched). -/
def RemoveArtefacts (labels : List ℕ) (remove : List ℕ) : List ℕ :=
  labels.filter (fun i => !remove.contains i)

/-- A row of the dataframe handed to `AddPercentage` (the columns it reads:
    `Sample File Name`, `Size`, `Height`, `Area`). -/
structure PeakRow where
  name : String
  size : ℚ
  height : ℚ
  area : ℚ
deriving DecidableEq, Repr

/-- A row of the output dataframe built by `AddPercentage` (columns
    `Sample File Name, Size, Height, Area, Percentage`; the `Percentage`
    entry is an `int`). -/
structure OutRow where
  name : String
  size : ℚ
  height : ℚ
  area : ℚ
  percentage : ℤ
deriving DecidableEq, Repr

/-- Python's `int(round(x, 0))`: round half to even (banker's rounding) to
    an integer.  `round` breaks exact halves towards the even integer; `int`
    of the resulting whole float is exact. -/
def pyRound (q : ℚ) : ℤ :=
  let f := ⌊q⌋
  let r := q - f
  if r < 1 / 2 then f
  else if r > 1 / 2 then f + 1
  else if f % 2 = 0 then f else f + 1

/-- Source: `AddPercentage(processed_df, sample_names)`.

    Python (per sample name `i`):
    ```
    dfSample = processed_df.loc[processed_df.iloc[:,1] == i, :]
    total_area = sum(dfSample.loc[:,"Area"])
    for index, row in dfSample.iterrows():
        percentage = int(round((row["Area"]/ total_area) * 100, 0))
        data_list.append([name, size, height, area, percentage])
    ```
    `processed_df.iloc[:,1]` is the sample-name column of a GeneScan sheet;
    row selection is modelled by filtering on `name`.  The chunks produced
    for the successive sample names are concatenated in order into the
    output dataframe. -/
def AddPercentage (processed_df : List PeakRow) (sample_names : List String) :
    List OutRow :=
  (sample_names.map (fun i =>
    let dfSample := processed_df.filter (fun r => r.name == i)
    let total_area := (dfSample.map (fun r => r.area)).sum
    dfSample.map (fun r =>
      { name := r.name, size := r.size, height := r.height, area := r.area,
        percentage := pyRound (r.area / total_area * 100) }))).flatten

/-- Row order used by `sort_values(by=['Sample File Name', 'Size'])`: sort
    by sample name, then by size.  Boolean comparator fed to the sort. -/
def rowLe (a b : OutRow) : Bool :=
  decide (a.name < b.name) || (a.name == b.name && decide (a.size ≤ b.size))

/-- Source: `filterAreaPercent(df_out, filter_threshold)`:
    ```
    df_out.query(f"Percentage >= {filter_threshold}").
        sort_values(by=['Sample File Name', 'Size'], ascending = True)
    ```
    The query keeps the rows whose integer `Percentage` is at least the
    (float) threshold; the surviving rows are then sorted by sample name and
    size.  The sort is modelled by `mergeSort`; the claims proved about it
    concern sortedness and membership, which every comparison sort
    satisfies. -/
def filterAreaPercent (df_out : List OutRow) (filter_threshold : ℚ) : List OutRow :=
  (df_out.filter (fun r => decide (filter_threshold ≤ (r.percentage : ℚ)))).mergeSort rowLe

/-- Errors `loadDf` can end in.  `keyError` is an uncaught pandas
    `KeyError` naming the columns a pandas operation did not find;
    `schemaError` is the explicit `exit_with_error` call reporting the
    expected column list against the columns found. -/
inductive LoadError where
  | keyError (missing : List String)
  | schemaError (expected found : List String)
deriving DecidableEq, Repr

/-- The required column names of the input sheet, in the order the source
    lists them (`expected = ['Sample File Name', 'Size', 'Height', 'Area']`,
    also the keys of the `astype` mapping). -/
def expectedColumns : List String := ["Sample File Name", "Size", "Height", "Area"]

/-- Source: `loadDf(input_file)`, modelled at the level of the input
    table's column list (`cols`), which is what every step of the function
    inspects.  The steps run in source order:
    1. `df.sort_values(by=['Sample File Name', 'Size'])` — pandas raises a
       `KeyError` listing the `by` columns that are absent;
    2. `df["Sample File Name"].str.rstrip().str.lstrip()` — raises a
       `KeyError` if that column is absent;
    3. `df.astype({'Sample File Name': str, 'Size': float, 'Height': float,
       'Area': float})` — pandas raises a `KeyError` if any key of the
       mapping names an absent column;
    4. the explicit loop over `expected` calling `exit_with_error` (the
       schema error) on the first required column not among `df.columns`.
    On success the (cleaned) dataframe is returned, represented by its
    columns. -/
def loadDf (cols : List String) : Except LoadError (List String) :=
  let missingSort := (["Sample File Name", "Size"].filter (fun c => !cols.contains c))
  if !missingSort.isEmpty then .error (.keyError missingSort)
  else if !cols.contains "Sample File Name" then .error (.keyError ["Sample File Name"])
  else
    let missingAstype := expectedColumns.filter (fun c => !cols.contains c)
    if !missingAstype.isEmpty then .error (.keyError missingAstype)
    else
      match expectedColumns.find? (fun c => !cols.contains c) with
      | some _ => .error (.schemaError expectedColumns cols)
      | none => .ok cols

/-- Discriminator: did `loadDf` end in the explicit schema error (the
    `exit_with_error` report of expected versus found columns)? -/
def isSchemaError : Except LoadError (List String) → Bool
  | .error (.schemaError _ _) => true
  | _ => false

/-!  Characterization of the cluster walk `findPeakCluster`. -/

theorem findPeakCluster_eq (sizes : List ℚ) (g : ℚ) :
    ∀ d index b, sizes.length - index ≤ d →
      findPeakCluster sizes g index b = (b ++ pathList sizes g index).dedup := by
  intro d
  induction d with
  | zero =>
    intro index b hd
    have h1 : sizes.length ≤ index + 1 := by omega
    rw [findPeakCluster, pathList]
    simp [h1]
  | succ d ih =>
    intro index b hd
    rw [findPeakCluster, pathList]
    by_cases h1 : sizes.length ≤ index + 1
    · simp [h1]
    · rw [if_neg h1, if_neg h1]
      by_cases h2 : sizes.getD (index + 1) 0 - sizes.getD index 0 > g
      · rw [if_pos h2, if_pos h2]
        simp
      · rw [if_neg h2, if_neg h2]
        rw [ih (index + 1) (b ++ [index, index + 1]) (by omega)]
        congr 1
        simp

theorem clusterLen_of_stop (sizes : List ℚ) (g : ℚ) (i : ℕ) (h : isStop sizes g i) :
    clusterLen sizes g i = 0 := by
  rw [clusterLen]
  by_cases h1 : sizes.length ≤ i + 1
  · simp [h1]
  · rcases h with h | h
    · exact absurd h h1
    · rw [if_neg h1, if_pos h]

theorem clusterLen_of_not_stop (sizes : List ℚ) (g : ℚ) (i : ℕ) (h : ¬ isStop sizes g i) :
    clusterLen sizes g i = clusterLen sizes g (i + 1) + 1 := by
  rw [isStop] at h
  push_neg at h
  rw [clusterLen, if_neg (not_le.mpr h.1), if_neg (not_lt.mpr h.2)]

theorem le_clusterEnd (sizes : List ℚ) (g : ℚ) (i : ℕ) : i ≤ clusterEnd sizes g i := by
  unfold clusterEnd; omega

theorem clusterEnd_of_stop (sizes : List ℚ) (g : ℚ) (i : ℕ) (h : isStop sizes g i) :
    clusterEnd sizes g i = i := by
  unfold clusterEnd; rw [clusterLen_of_stop sizes g i h]; omega

theorem clusterEnd_of_not_stop (sizes : List ℚ) (g : ℚ) (i : ℕ) (h : ¬ isStop sizes g i) :
    clusterEnd sizes g i = clusterEnd sizes g (i + 1) := by
  unfold clusterEnd; rw [clusterLen_of_not_stop sizes g i h]; omega

theorem isStop_of_length_le (sizes : List ℚ) (g : ℚ) (i : ℕ) (h : sizes.length ≤ i + 1) :
    isStop sizes g i := Or.inl h

theorem isStop_clusterEnd (sizes : List ℚ) (g : ℚ) :
    ∀ d i, sizes.length - i ≤ d → isStop sizes g (clusterEnd sizes g i) := by
  intro d
  induction d with
  | zero =>
    intro i hd
    have h : isStop sizes g i := Or.inl (by omega)
    rw [clusterEnd_of_stop sizes g i h]; exact h
  | succ d ih =>
    intro i hd
    by_cases h : isStop sizes g i
    · rw [clusterEnd_of_stop sizes g i h]; exact h
    · rw [clusterEnd_of_not_stop sizes g i h]
      have h1 : i + 1 < sizes.length := by
        rcases not_or.mp (by rw [isStop] at h; exact h) with ⟨h1, -⟩
        omega
      exact ih (i + 1) (by omega)

theorem not_isStop_of_between (sizes : List ℚ) (g : ℚ) :
    ∀ d i k, sizes.length - i ≤ d → i ≤ k → k < clusterEnd sizes g i →
      ¬ isStop sizes g k := by
  intro d
  induction d with
  | zero =>
    intro i k hd hik hk
    have h : isStop sizes g i := Or.inl (by omega)
    rw [clusterEnd_of_stop sizes g i h] at hk
    omega
  | succ d ih =>
    intro i k hd hik hk
    by_cases h : isStop sizes g i
    · rw [clusterEnd_of_stop sizes g i h] at hk; omega
    · rcases Nat.eq_or_lt_of_le hik with rfl | hik'
      · exact h
      · have h1 : i + 1 < sizes.length := by
          rcases not_or.mp (by rw [isStop] at h; exact h) with ⟨h1, -⟩
          omega
        rw [clusterEnd_of_not_stop sizes g i h] at hk
        exact ih (i + 1) k (by omega) hik' hk

theorem clusterEnd_lt_length (sizes : List ℚ) (g : ℚ) :
    ∀ d i, sizes.length - i ≤ d → i < sizes.length →
      clusterEnd sizes g i < sizes.length := by
  intro d
  induction d with
  | zero => intro i hd hi; omega
  | succ d ih =>
    intro i hd hi
    by_cases h : isStop sizes g i
    · rw [clusterEnd_of_stop sizes g i h]; exact hi
    · have h1 : i + 1 < sizes.length := by
        rcases not_or.mp (by rw [isStop] at h; exact h) with ⟨h1, -⟩
        omega
      rw [clusterEnd_of_not_stop sizes g i h]
      exact ih (i + 1) (by omega) h1

theorem mem_pathList (sizes : List ℚ) (g : ℚ) :
    ∀ d i, sizes.length - i ≤ d → ∀ x : ℕ,
      (x ∈ pathList sizes g i ↔
        (¬ isStop sizes g i ∧ i ≤ x ∧ x ≤ clusterEnd sizes g i)) := by
  intro d
  induction d with
  | zero =>
    intro i hd x
    have h : isStop sizes g i := Or.inl (by omega)
    rw [pathList]
    rcases h with h1 | h1
    · rw [if_pos h1]
      simp only [List.not_mem_nil, false_iff]
      rintro ⟨hns, -, -⟩
      exact hns (Or.inl h1)
    · by_cases h2 : sizes.length ≤ i + 1
      · rw [if_pos h2]
        simp only [List.not_mem_nil, false_iff]
        rintro ⟨hns, -, -⟩
        exact hns (Or.inl h2)
      · rw [if_neg h2, if_pos h1]
        simp only [List.not_mem_nil, false_iff]
        rintro ⟨hns, -, -⟩
        exact hns (Or.inr h1)
  | succ d ih =>
    intro i hd x
    rw [pathList]
    by_cases h1 : sizes.length ≤ i + 1
    · simp [h1, isStop_of_length_le sizes g i h1]
    · rw [if_neg h1]
      by_cases h2 : sizes.getD (i + 1) 0 - sizes.getD i 0 > g
      · rw [if_pos h2]
        simp only [List.not_mem_nil, false_iff]
        rintro ⟨hns, -, -⟩
        exact hns (Or.inr h2)
      · rw [if_neg h2]
        have hns : ¬ isStop sizes g i := by
          rw [isStop]
          push_neg
          exact ⟨not_le.mp h1, not_lt.mp h2⟩
        have hEnd : clusterEnd sizes g i = clusterEnd sizes g (i + 1) :=
          clusterEnd_of_not_stop sizes g i hns
        have hle : i + 1 ≤ clusterEnd sizes g (i + 1) := le_clusterEnd sizes g (i + 1)
        constructor
        · intro hx
          rcases List.mem_cons.mp hx with rfl | hx
          · exact ⟨hns, le_refl x, by omega⟩
          · rcases List.mem_cons.mp hx with rfl | hx
            · exact ⟨hns, by omega, by omega⟩
            · rcases (ih (i + 1) (by omega) x).mp hx with ⟨-, hx1, hx2⟩
              exact ⟨hns, by omega, by omega⟩
        · rintro ⟨-, hix, hxe⟩
          rw [hEnd] at hxe
          rcases Nat.eq_or_lt_of_le hix with rfl | hix'
          · exact List.mem_cons_self _ _
          · rcases Nat.eq_or_lt_of_le hix' with h' | hix''
            · exact List.mem_cons.mpr (Or.inr (List.mem_cons.mpr (Or.inl h'.symm)))
            · have hns1 : ¬ isStop sizes g (i + 1) := by
                intro hst
                rw [clusterEnd_of_stop sizes g (i + 1) hst] at hxe
                omega
              refine List.mem_cons.mpr (Or.inr (List.mem_cons.mpr (Or.inr ?_)))
              exact (ih (i + 1) (by omega) x).mpr ⟨hns1, by omega, hxe⟩

theorem findPeakCluster_eq_dedup (sizes : List ℚ) (g : ℚ) (index : ℕ) (b : List ℕ) :
    findPeakCluster sizes g index b = (b ++ pathList sizes g index).dedup :=
  findPeakCluster_eq sizes g sizes.length index b (by omega)

theorem mem_pathList_iff (sizes : List ℚ) (g : ℚ) (i x : ℕ) :
    x ∈ pathList sizes g i ↔
      (¬ isStop sizes g i ∧ i ≤ x ∧ x ≤ clusterEnd sizes g i) :=
  mem_pathList sizes g sizes.length i (by omega) x

theorem mem_findPeakCluster (sizes : List ℚ) (g : ℚ) (i x : ℕ) :
    x ∈ findPeakCluster sizes g i [] ↔
      (¬ isStop sizes g i ∧ i ≤ x ∧ x ≤ clusterEnd sizes g i) := by
  rw [findPeakCluster_eq_dedup, List.nil_append, List.mem_dedup]
  exact mem_pathList_iff sizes g i x

theorem pathList_eq_nil_of_stop (sizes : List ℚ) (g : ℚ) (i : ℕ)
    (hs : isStop sizes g i) : pathList sizes g i = [] :=
  List.eq_nil_iff_forall_not_mem.mpr
    (fun x hx => absurd hs ((mem_pathList_iff sizes g i x).mp hx).1)

theorem foldl_mrStep_skip (sizes : List ℚ) (g : ℚ) (l : List ℕ) (acc : List (List ℕ)) :
    (∀ k ∈ l, k ∈ acc.flatten) →
    l.foldl (fun acc index => if index ∈ acc.flatten then acc
      else acc ++ [findPeakCluster sizes g index []]) acc = acc := by
  induction l with
  | nil => intro _; rfl
  | cons a t ih =>
    intro h
    rw [List.foldl_cons, if_pos (h a (List.mem_cons_self a t))]
    exact ih (fun k hk => h k (List.mem_cons_of_mem a hk))

theorem foldl_mrStep_scanRanges (sizes : List ℚ) (g : ℚ) :
    ∀ d i acc, sizes.length - i ≤ d →
      (∀ c ∈ acc, ∀ x ∈ c, x < i) →
      (List.range' i (sizes.length - i)).foldl
        (fun acc index => if index ∈ acc.flatten then acc
          else acc ++ [findPeakCluster sizes g index []]) acc
        = acc ++ scanRanges sizes g i := by
  intro d
  induction d with
  | zero =>
    intro i acc hd hacc
    have hlen : sizes.length ≤ i := by omega
    have h0 : sizes.length - i = 0 := by omega
    rw [h0, scanRanges, if_pos hlen]
    simp
  | succ d ih =>
    intro i acc hd hacc
    by_cases hlen : sizes.length ≤ i
    · have h0 : sizes.length - i = 0 := by omega
      rw [h0, scanRanges, if_pos hlen]
      simp
    · have hi : i < sizes.length := by omega
      have hnotin : i ∉ acc.flatten := by
        intro hmem
        rcases List.mem_flatten.mp hmem with ⟨c, hc, hic⟩
        exact absurd (hacc c hc i hic) (by omega)
      by_cases hs : isStop sizes g i
      · have hcl : findPeakCluster sizes g i [] = [] := by
          rw [findPeakCluster_eq_dedup, List.nil_append,
            pathList_eq_nil_of_stop sizes g i hs, List.dedup_nil]
        have hsplit : sizes.length - i = (sizes.length - (i + 1)) + 1 := by omega
        conv_rhs => rw [scanRanges]
        rw [if_neg hlen, if_pos hs]
        rw [hsplit, List.range'_succ, List.foldl_cons, if_neg hnotin, hcl]
        have hinv : ∀ c ∈ acc ++ [([] : List ℕ)], ∀ x ∈ c, x < i + 1 := by
          intro c hc x hx
          rcases List.mem_append.mp hc with hc | hc
          · exact Nat.lt_succ_of_lt (hacc c hc x hx)
          · rw [List.mem_singleton.mp hc] at hx
            exact absurd hx (List.not_mem_nil x)
        rw [ih (i + 1) (acc ++ [[]]) (by omega) hinv, List.append_assoc]
        rfl
      · have hle : i ≤ clusterEnd sizes g i := le_clusterEnd sizes g i
        have helt : clusterEnd sizes g i < sizes.length :=
          clusterEnd_lt_length sizes g sizes.length i (by omega) hi
        conv_rhs => rw [scanRanges]
        rw [if_neg hlen, if_neg hs]
        have hsplit : sizes.length - i =
            (sizes.length - (clusterEnd sizes g i + 1)) + (clusterEnd sizes g i + 1 - i) := by
          omega
        rw [hsplit, ← List.range'_append_1]
        have hbase : i + (clusterEnd sizes g i + 1 - i) = clusterEnd sizes g i + 1 := by omega
        rw [hbase, List.foldl_append]
        have hsplit2 : clusterEnd sizes g i + 1 - i = (clusterEnd sizes g i - i) + 1 := by omega
        rw [hsplit2, List.range'_succ, List.foldl_cons, if_neg hnotin]
        have hskip : ∀ k ∈ List.range' (i + 1) (clusterEnd sizes g i - i),
            k ∈ (acc ++ [findPeakCluster sizes g i []]).flatten := by
          intro k hk
          rcases List.mem_range'_1.mp hk with ⟨hk1, hk2⟩
          refine List.mem_flatten.mpr ⟨findPeakCluster sizes g i [], ?_, ?_⟩
          · exact List.mem_append.mpr (Or.inr (List.mem_singleton.mpr rfl))
          · exact (mem_findPeakCluster sizes g i k).mpr ⟨hs, by omega, by omega⟩
        rw [foldl_mrStep_skip sizes g _ _ hskip]
        have hinv : ∀ c ∈ acc ++ [findPeakCluster sizes g i []], ∀ x ∈ c,
            x < clusterEnd sizes g i + 1 := by
          intro c hc x hx
          rcases List.mem_append.mp hc with hc | hc
          · have := hacc c hc x hx
            omega
          · rw [List.mem_singleton.mp hc] at hx
            rcases (mem_findPeakCluster sizes g i x).mp hx with ⟨-, -, hx2⟩
            omega
        have hend : clusterEnd sizes g i + 1 = i + clusterLen sizes g i + 1 := by
          unfold clusterEnd
          omega
        rw [ih (clusterEnd sizes g i + 1) (acc ++ [findPeakCluster sizes g i []])
          (by omega) hinv, List.append_assoc]
        rw [findPeakCluster_eq_dedup, List.nil_append, hend]
        rfl

theorem findMountainRangesSample_eq_scanRanges (sizes : List ℚ) (g : ℚ) :
    findMountainRangesSample sizes g =
      (scanRanges sizes g 0).filter (fun x => !x.isEmpty) := by
  unfold findMountainRangesSample
  rw [List.range_eq_range']
  have h0 : List.range' 0 sizes.length = List.range' 0 (sizes.length - 0) := by
    rw [Nat.sub_zero]
  rw [h0, foldl_mrStep_scanRanges sizes g sizes.length 0 [] (by omega)
    (fun c hc => absurd hc (List.not_mem_nil c))]
  rfl

theorem scanRanges_mem_ge (sizes : List ℚ) (g : ℚ) :
    ∀ d i, sizes.length - i ≤ d → ∀ c ∈ scanRanges sizes g i, ∀ x ∈ c, i ≤ x := by
  intro d
  induction d with
  | zero =>
    intro i hd c hc x hx
    rw [scanRanges, if_pos (by omega : sizes.length ≤ i)] at hc
    exact absurd hc (List.not_mem_nil c)
  | succ d ih =>
    intro i hd c hc x hx
    by_cases hlen : sizes.length ≤ i
    · rw [scanRanges, if_pos hlen] at hc
      exact absurd hc (List.not_mem_nil c)
    · rw [scanRanges, if_neg hlen] at hc
      by_cases hs : isStop sizes g i
      · rw [if_pos hs] at hc
        rcases List.mem_cons.mp hc with rfl | hc
        · exact absurd hx (List.not_mem_nil x)
        · have := ih (i + 1) (by omega) c hc x hx
          omega
      · rw [if_neg hs] at hc
        rcases List.mem_cons.mp hc with rfl | hc
        · exact ((mem_pathList_iff sizes g i x).mp (List.mem_dedup.mp hx)).2.1
        · have := ih (i + clusterLen sizes g i + 1) (by omega) c hc x hx
          omega

theorem scanRanges_nodup (sizes : List ℚ) (g : ℚ) :
    ∀ d i, sizes.length - i ≤ d → ∀ c ∈ scanRanges sizes g i, c.Nodup := by
  intro d
  induction d with
  | zero =>
    intro i hd c hc
    rw [scanRanges, if_pos (by omega : sizes.length ≤ i)] at hc
    exact absurd hc (List.not_mem_nil c)
  | succ d ih =>
    intro i hd c hc
    by_cases hlen : sizes.length ≤ i
    · rw [scanRanges, if_pos hlen] at hc
      exact absurd hc (List.not_mem_nil c)
    · rw [scanRanges, if_neg hlen] at hc
      by_cases hs : isStop sizes g i
      · rw [if_pos hs] at hc
        rcases List.mem_cons.mp hc with rfl | hc
        · exact List.nodup_nil
        · exact ih (i + 1) (by omega) c hc
      · rw [if_neg hs] at hc
        rcases List.mem_cons.mp hc with rfl | hc
        · exact List.nodup_dedup (pathList sizes g i)
        · exact ih (i + clusterLen sizes g i + 1) (by omega) c hc

theorem scanRanges_disjoint (sizes : List ℚ) (g : ℚ) :
    ∀ d i, sizes.length - i ≤ d → (scanRanges sizes g i).Pairwise List.Disjoint := by
  intro d
  induction d with
  | zero =>
    intro i hd
    rw [scanRanges, if_pos (by omega : sizes.length ≤ i)]
    exact List.Pairwise.nil
  | succ d ih =>
    intro i hd
    by_cases hlen : sizes.length ≤ i
    · rw [scanRanges, if_pos hlen]
      exact List.Pairwise.nil
    · rw [scanRanges, if_neg hlen]
      by_cases hs : isStop sizes g i
      · rw [if_pos hs]
        refine List.Pairwise.cons ?_ (ih (i + 1) (by omega))
        intro c hc a ha
        exact absurd ha (List.not_mem_nil a)
      · rw [if_neg hs]
        refine List.Pairwise.cons ?_ (ih (i + clusterLen sizes g i + 1) (by omega))
        intro c hc a ha hac
        have h1 : a ≤ clusterEnd sizes g i :=
          ((mem_pathList_iff sizes g i a).mp (List.mem_dedup.mp ha)).2.2
        have h2 : i + clusterLen sizes g i + 1 ≤ a :=
          scanRanges_mem_ge sizes g sizes.length (i + clusterLen sizes g i + 1)
            (by omega) c hc a hac
        have h3 : clusterEnd sizes g i = i + clusterLen sizes g i := rfl
        omega

theorem scanRanges_cover (sizes : List ℚ) (g : ℚ) :
    ∀ d i, sizes.length - i ≤ d → ∀ x : ℕ,
      (x ∈ (scanRanges sizes g i).flatten ↔
        (i ≤ x ∧ x < sizes.length ∧
          (¬ isStop sizes g x ∨ (i < x ∧ ¬ isStop sizes g (x - 1))))) := by
  intro d
  induction d with
  | zero =>
    intro i hd x
    rw [scanRanges, if_pos (by omega : sizes.length ≤ i)]
    simp only [List.flatten_nil, List.not_mem_nil, false_iff]
    rintro ⟨h1, h2, -⟩
    omega
  | succ d ih =>
    intro i hd x
    by_cases hlen : sizes.length ≤ i
    · rw [scanRanges, if_pos hlen]
      simp only [List.flatten_nil, List.not_mem_nil, false_iff]
      rintro ⟨h1, h2, -⟩
      omega
    · rw [scanRanges, if_neg hlen]
      by_cases hs : isStop sizes g i
      · rw [if_pos hs]
        rw [List.flatten_cons, List.nil_append]
        rw [ih (i + 1) (by omega) x]
        constructor
        · rintro ⟨h1, h2, h3⟩
          refine ⟨by omega, h2, ?_⟩
          rcases h3 with h3 | ⟨h3, h4⟩
          · exact Or.inl h3
          · exact Or.inr ⟨by omega, h4⟩
        · rintro ⟨h1, h2, h3⟩
          have hxi : x ≠ i := by
            rintro rfl
            rcases h3 with h3 | ⟨h3, -⟩
            · exact h3 hs
            · omega
          refine ⟨by omega, h2, ?_⟩
          rcases h3 with h3 | ⟨h3, h4⟩
          · exact Or.inl h3
          · have hxi1 : x ≠ i + 1 := by
              rintro rfl
              simp only [Nat.add_sub_cancel] at h4
              exact h4 hs
            exact Or.inr ⟨by omega, h4⟩
      · rw [if_neg hs]
        rw [List.flatten_cons, List.mem_append, List.mem_dedup,
          mem_pathList_iff sizes g i x]
        have hE : clusterEnd sizes g i = i + clusterLen sizes g i := rfl
        have hge : i + 1 ≤ clusterEnd sizes g i := by
          rw [clusterEnd_of_not_stop sizes g i hs]
          exact le_clusterEnd sizes g (i + 1)
        have hlt : clusterEnd sizes g i < sizes.length :=
          clusterEnd_lt_length sizes g sizes.length i (by omega) (by omega)
        have hstopE : isStop sizes g (clusterEnd sizes g i) :=
          isStop_clusterEnd sizes g sizes.length i (by omega)
        rw [ih (i + clusterLen sizes g i + 1) (by omega) x]
        rw [← hE]
        constructor
        · rintro (⟨-, h1, h2⟩ | ⟨h1, h2, h3⟩)
          · refine ⟨h1, by omega, ?_⟩
            rcases Nat.eq_or_lt_of_le h2 with h2eq | h2'
            · refine Or.inr ⟨by omega, ?_⟩
              exact not_isStop_of_between sizes g sizes.length i (x - 1)
                (by omega) (by omega) (by omega)
            · exact Or.inl (not_isStop_of_between sizes g sizes.length i x
                (by omega) h1 h2')
          · refine ⟨by omega, h2, ?_⟩
            rcases h3 with h3 | ⟨h3, h4⟩
            · exact Or.inl h3
            · exact Or.inr ⟨by omega, h4⟩
        · rintro ⟨h1, h2, h3⟩
          by_cases hxe : x ≤ clusterEnd sizes g i
          · exact Or.inl ⟨hs, h1, hxe⟩
          · refine Or.inr ⟨by omega, h2, ?_⟩
            rcases h3 with h3 | ⟨h3, h4⟩
            · exact Or.inl h3
            · by_cases hx1 : x = clusterEnd sizes g i + 1
              · subst hx1
                simp only [Nat.add_sub_cancel] at h4
                exact absurd hstopE h4
              · exact Or.inr ⟨by omega, h4⟩

/-- Claim C1 (amended).  For every sample (size list) and `peak_gap`, the
    clusters built by `findMountainRangesSample` are duplicate-free and
    pairwise disjoint, and a peak index belongs to some cluster exactly when
    it is within `peak_gap` of an adjacent peak; an isolated peak belongs to
    no cluster (the code returns the empty list for it and filters it out,
    rather than forming a singleton cluster). -/
theorem claim_C1 (sizes : List ℚ) (peak_gap : ℚ)
    (hsorted : List.Sorted (fun a b : ℚ => a ≤ b) sizes) (hgap : 0 ≤ peak_gap) :
    (∀ c ∈ findMountainRangesSample sizes peak_gap, c.Nodup)
    ∧ (findMountainRangesSample sizes peak_gap).Pairwise List.Disjoint
    ∧ (∀ x : ℕ, (∃ c ∈ findMountainRangesSample sizes peak_gap, x ∈ c) ↔
        (x < sizes.length ∧
          ((x + 1 < sizes.length ∧ sizes.getD (x + 1) 0 - sizes.getD x 0 ≤ peak_gap) ∨
           (0 < x ∧ sizes.getD x 0 - sizes.getD (x - 1) 0 ≤ peak_gap)))) := by
  rw [findMountainRangesSample_eq_scanRanges]
  refine ⟨?_, ?_, ?_⟩
  · intro c hc
    exact scanRanges_nodup sizes peak_gap sizes.length 0 (by omega) c
      (List.mem_of_mem_filter hc)
  · exact (scanRanges_disjoint sizes peak_gap sizes.length 0 (by omega)).sublist
      (List.filter_sublist _)
  · intro x
    have hcov := scanRanges_cover sizes peak_gap sizes.length 0 (by omega) x
    constructor
    · rintro ⟨c, hc, hxc⟩
      have hx : x ∈ (scanRanges sizes peak_gap 0).flatten :=
        List.mem_flatten.mpr ⟨c, List.mem_of_mem_filter hc, hxc⟩
      rcases hcov.mp hx with ⟨-, h2, h3⟩
      refine ⟨h2, ?_⟩
      rcases h3 with h3 | ⟨h3, h4⟩
      · rw [isStop] at h3
        push_neg at h3
        exact Or.inl ⟨by omega, h3.2⟩
      · rw [isStop] at h4
        push_neg at h4
        have hx1 : x - 1 + 1 = x := by omega
        rw [hx1] at h4
        exact Or.inr ⟨h3, h4.2⟩
    · rintro ⟨h2, h3⟩
      have hx : x ∈ (scanRanges sizes peak_gap 0).flatten := by
        refine hcov.mpr ⟨by omega, h2, ?_⟩
        rcases h3 with ⟨ha, hb⟩ | ⟨ha, hb⟩
        · refine Or.inl ?_
          rw [isStop]
          push_neg
          exact ⟨by omega, hb⟩
        · refine Or.inr ⟨ha, ?_⟩
          rw [isStop]
          push_neg
          have hx1 : x - 1 + 1 = x := by omega
          rw [hx1]
          exact ⟨by omega, hb⟩
      rcases List.mem_flatten.mp hx with ⟨c, hcL, hxc⟩
      refine ⟨c, List.mem_filter.mpr ⟨hcL, ?_⟩, hxc⟩
      cases c with
      | nil => exact absurd hxc (List.not_mem_nil x)
      | cons a t => rfl

/-- Claim C1 counterexample: the sample with sizes `[0, 10]` and
    `peak_gap = 1` is size-ascending with a non-negative gap, yet
    `findMountainRanges` produces no cluster at all: both peaks are
    isolated, so neither appears in any cluster, contradicting the claimed
    exact partition into clusters with singletons for isolated peaks. -/
theorem claim_C1_counterexample :
    List.Sorted (fun a b : ℚ => a ≤ b) [(0 : ℚ), 10] ∧ (0 : ℚ) ≤ 1 ∧
      findMountainRangesSample [(0 : ℚ), 10] 1 = [] := by
  refine ⟨by norm_num [List.sorted_cons], by norm_num, ?_⟩
  have hstop0 : isStop [(0 : ℚ), 10] 1 0 := Or.inr (by norm_num [List.getD])
  have hstop1 : isStop [(0 : ℚ), 10] 1 1 := Or.inl (by norm_num)
  rw [findMountainRangesSample_eq_scanRanges]
  refine List.eq_nil_iff_forall_not_mem.mpr ?_
  intro c hc
  rcases List.mem_filter.mp hc with ⟨hcL, hne⟩
  have hcne : c ≠ [] := by
    intro h
    rw [h] at hne
    exact absurd hne (by norm_num)
  obtain ⟨x, hx⟩ := List.exists_mem_of_ne_nil c hcne
  have hmem : x ∈ (scanRanges [(0 : ℚ), 10] 1 0).flatten :=
    List.mem_flatten.mpr ⟨c, hcL, hx⟩
  rcases (scanRanges_cover [(0 : ℚ), 10] 1 2 0 (by norm_num) x).mp hmem with ⟨-, hx2, hx3⟩
  have hx01 : x = 0 ∨ x = 1 := by
    simp only [List.length_cons, List.length_nil] at hx2
    omega
  rcases hx01 with rfl | rfl
  · rcases hx3 with h | ⟨h0, -⟩
    · exact h hstop0
    · omega
  · rcases hx3 with h | ⟨-, h⟩
    · exact h hstop1
    · exact h hstop0

/-- Witness for claim C1 at the concrete sample `[0, 1, 10]` with
    `peak_gap = 1`: the hypotheses hold and the theorem applies. -/
theorem claim_C1_witness :
    List.Sorted (fun a b : ℚ => a ≤ b) [(0 : ℚ), 1, 10] ∧ (0 : ℚ) ≤ 1 ∧
      ((∀ c ∈ findMountainRangesSample [(0 : ℚ), 1, 10] 1, c.Nodup)
      ∧ (findMountainRangesSample [(0 : ℚ), 1, 10] 1).Pairwise List.Disjoint
      ∧ (∀ x : ℕ, (∃ c ∈ findMountainRangesSample [(0 : ℚ), 1, 10] 1, x ∈ c) ↔
          (x < ([(0 : ℚ), 1, 10] : List ℚ).length ∧
            ((x + 1 < ([(0 : ℚ), 1, 10] : List ℚ).length ∧
              ([(0 : ℚ), 1, 10] : List ℚ).getD (x + 1) 0 -
                ([(0 : ℚ), 1, 10] : List ℚ).getD x 0 ≤ 1) ∨
             (0 < x ∧ ([(0 : ℚ), 1, 10] : List ℚ).getD x 0 -
                ([(0 : ℚ), 1, 10] : List ℚ).getD (x - 1) 0 ≤ 1))))) :=
  ⟨by norm_num [List.sorted_cons], by norm_num,
    claim_C1 [(0 : ℚ), 1, 10] 1 (by norm_num [List.sorted_cons]) (by norm_num)⟩

/-- Claim C10.  The recursion of `findPeakCluster` terminates on every
    sample: started at row `index` of a sample with `sizes.length` peaks,
    the faithful fuel-indexed copy of the recursion completes (never
    exhausts its fuel) whenever it is given at least
    `sizes.length - index ≤ number of peaks` units of fuel, and its result
    is the total function `findPeakCluster`.  Each recursive call increases
    `index` by one and the recursion stops at the sample's last row, so the
    recursion depth is bounded by the number of peaks. -/
theorem claim_C10 (sizes : List ℚ) (peak_gap : ℚ) :
    ∀ fuel index build_list, index < sizes.length → sizes.length - index ≤ fuel →
      findPeakClusterFuel fuel sizes peak_gap index build_list =
        some (findPeakCluster sizes peak_gap index build_list) := by
  intro fuel
  induction fuel with
  | zero => intro index b h1 h2; omega
  | succ f ih =>
    intro index b h1 h2
    rw [findPeakClusterFuel, findPeakCluster]
    by_cases hg1 : sizes.length ≤ index + 1
    · rw [if_pos hg1, if_pos hg1]
    · rw [if_neg hg1, if_neg hg1]
      by_cases hg2 : sizes.getD (index + 1) 0 - sizes.getD index 0 > peak_gap
      · rw [if_pos hg2, if_pos hg2]
      · rw [if_neg hg2, if_neg hg2]
        exact ih (index + 1) (b ++ [index, index + 1]) (by omega) (by omega)

/-- Witness for claim C10: on the three-peak sample `[50, 50.5, 51]` with
    `peak_gap = 1`, three units of fuel (the number of peaks) complete the
    recursion started at row 0. -/
theorem claim_C10_witness :
    (0 : ℕ) < ([(50 : ℚ), 50.5, 51] : List ℚ).length ∧
      ([(50 : ℚ), 50.5, 51] : List ℚ).length - 0 ≤ 3 ∧
      findPeakClusterFuel 3 [(50 : ℚ), 50.5, 51] 1 0 [] =
        some (findPeakCluster [(50 : ℚ), 50.5, 51] 1 0 []) :=
  ⟨by norm_num, by norm_num,
    claim_C10 [(50 : ℚ), 50.5, 51] 1 3 0 [] (by norm_num) (by norm_num)⟩

theorem getD_of_lt {α : Type} (l : List α) (n : ℕ) (d : α) (h : n < l.length) :
    l.getD n d = l[n] := by
  simp [List.getElem?_eq_getElem h]

theorem getD_mem {α : Type} (l : List α) (n : ℕ) (d : α) (h : n < l.length) :
    l.getD n d ∈ l := by
  rw [getD_of_lt l n d h]
  exact List.getElem_mem h

theorem foldl_max_spec (l : List ℚ) : ∀ a : ℚ,
    (∀ y ∈ l, y ≤ l.foldl max a) ∧ a ≤ l.foldl max a ∧
      (l.foldl max a = a ∨ l.foldl max a ∈ l) := by
  induction l with
  | nil =>
    intro a
    exact ⟨fun y hy => absurd hy (List.not_mem_nil y), le_refl a, Or.inl rfl⟩
  | cons x t ih =>
    intro a
    rw [List.foldl_cons]
    rcases ih (max a x) with ⟨h1, h2, h3⟩
    refine ⟨?_, ?_, ?_⟩
    · intro y hy
      rcases List.mem_cons.mp hy with rfl | hy
      · exact le_trans (le_max_right a y) h2
      · exact h1 y hy
    · exact le_trans (le_max_left a x) h2
    · rcases h3 with h3 | h3
      · rcases max_choice a x with hm | hm
        · exact Or.inl (h3.trans hm)
        · exact Or.inr (List.mem_cons.mpr (Or.inl (h3.trans hm)))
      · exact Or.inr (List.mem_cons.mpr (Or.inr h3))

theorem le_listMax (l : List ℚ) (y : ℚ) (hy : y ∈ l) : y ≤ listMax l := by
  cases l with
  | nil => exact absurd hy (List.not_mem_nil y)
  | cons x t =>
    rw [listMax]
    rcases List.mem_cons.mp hy with rfl | hy
    · exact (foldl_max_spec t y).2.1
    · exact (foldl_max_spec t x).1 y hy

theorem listMax_mem (l : List ℚ) (h : l ≠ []) : listMax l ∈ l := by
  cases l with
  | nil => exact absurd rfl h
  | cons x t =>
    rw [listMax]
    rcases (foldl_max_spec t x).2.2 with h3 | h3
    · exact List.mem_cons.mpr (Or.inl h3)
    · exact List.mem_cons.mpr (Or.inr h3)

theorem maxAreaIdx_lt_length (area : ℕ → ℚ) (cl : List ℕ) (h : cl ≠ []) :
    maxAreaIdx area cl < cl.length := by
  have hne : cl.map area ≠ [] := by
    intro hmap
    exact h (List.map_eq_nil_iff.mp hmap)
  have := List.indexOf_lt_length.mpr (listMax_mem (cl.map area) hne)
  rw [List.length_map] at this
  exact this

theorem area_maxAreaIdx (area : ℕ → ℚ) (cl : List ℕ) (h : cl ≠ []) :
    area (cl.getD (maxAreaIdx area cl) 0) = listMax (cl.map area) := by
  have hlt : maxAreaIdx area cl < cl.length := maxAreaIdx_lt_length area cl h
  have hlt2 : maxAreaIdx area cl < (cl.map area).length := by
    rw [List.length_map]; exact hlt
  rw [getD_of_lt cl _ 0 hlt]
  have := List.getElem_indexOf hlt2
  rw [List.getElem_map] at this
  exact this

theorem area_lt_of_lt_maxAreaIdx (area : ℕ → ℚ) (cl : List ℕ) (j : ℕ)
    (hj : j < maxAreaIdx area cl) (h : cl ≠ []) :
    area (cl.getD j 0) < listMax (cl.map area) := by
  have hlt : maxAreaIdx area cl < cl.length := maxAreaIdx_lt_length area cl h
  have hjlen : j < cl.length := by omega
  have hjlen2 : j < (cl.map area).length := by rw [List.length_map]; exact hjlen
  have hne := @List.not_of_lt_findIdx ℚ (fun q => q == listMax (cl.map area))
    (cl.map area) j hj
  rw [getD_of_lt cl j 0 hjlen]
  have hmem : area (cl[j]) ∈ cl.map area := by
    rw [← List.getElem_map area]
    exact List.getElem_mem hjlen2
  rcases lt_or_eq_of_le (le_listMax (cl.map area) (area (cl[j])) hmem) with hlt' | heq
  · exact hlt'
  · exfalso
    rw [List.getElem_map] at hne
    exact absurd heq (by simpa using hne)


theorem cleanCluster_len_two (area : ℕ → ℚ) (cs : ℕ) (i j : ℕ) :
    cleanCluster area cs [i, j] =
      (if area i > area j then [j] else if area j > area i then [i] else []) := rfl

theorem cleanCluster_mid (area : ℕ → ℚ) (cs : ℕ) (cl : List ℕ)
    (h3 : 2 < cl.length) (hcs : cl.length ≤ cs) :
    cleanCluster area cs cl = cl.eraseIdx (maxAreaIdx area cl) := by
  rw [cleanCluster, if_neg (by omega : ¬ cl.length = 2), if_pos ⟨h3, hcs⟩]

theorem cleanCluster_other (area : ℕ → ℚ) (cs : ℕ) (cl : List ℕ)
    (h : cl.length ≠ 2) (h2 : ¬ (2 < cl.length ∧ cl.length ≤ cs)) :
    cleanCluster area cs cl = [] := by
  rw [cleanCluster, if_neg h, if_neg h2]

theorem cleanCluster_subset (area : ℕ → ℚ) (cs : ℕ) (cl : List ℕ) :
    ∀ x ∈ cleanCluster area cs cl, x ∈ cl := by
  intro x hx
  rw [cleanCluster] at hx
  by_cases h1 : cl.length = 2
  · rw [if_pos h1] at hx
    simp only at hx
    split_ifs at hx
    · rw [List.mem_singleton.mp hx]
      exact getD_mem cl 1 0 (by omega)
    · rw [List.mem_singleton.mp hx]
      exact getD_mem cl 0 0 (by omega)
    · exact absurd hx (List.not_mem_nil x)
  · rw [if_neg h1] at hx
    split_ifs at hx with h2
    · exact List.eraseIdx_subset cl _ hx
    · exact absurd hx (List.not_mem_nil x)

theorem mem_cleanMountainRanges (area : ℕ → ℚ) (cs : ℕ) (M : List (List ℕ)) (x : ℕ) :
    x ∈ cleanMountainRanges area cs M ↔ ∃ cl ∈ M, x ∈ cleanCluster area cs cl := by
  rw [cleanMountainRanges, List.mem_flatten]
  constructor
  · rintro ⟨l, hl, hxl⟩
    rcases List.mem_map.mp hl with ⟨cl, hcl, rfl⟩
    exact ⟨cl, hcl, hxl⟩
  · rintro ⟨cl, hcl, hx⟩
    exact ⟨cleanCluster area cs cl, List.mem_map_of_mem _ hcl, hx⟩

theorem mem_cleanCluster_of_disjoint (area : ℕ → ℚ) (cs : ℕ) :
    ∀ M : List (List ℕ), M.Pairwise List.Disjoint →
      ∀ cl ∈ M, ∀ x ∈ cl, x ∈ cleanMountainRanges area cs M →
        x ∈ cleanCluster area cs cl := by
  intro M
  induction M with
  | nil =>
    intro _ cl hcl
    exact absurd hcl (List.not_mem_nil cl)
  | cons d t ih =>
    intro hp cl hcl x hx hmem
    rcases List.pairwise_cons.mp hp with ⟨hd, ht⟩
    have hsplit : cleanMountainRanges area cs (d :: t) =
        cleanCluster area cs d ++ cleanMountainRanges area cs t := by
      rw [cleanMountainRanges, List.map_cons, List.flatten_cons, cleanMountainRanges]
    rw [hsplit] at hmem
    rcases List.mem_cons.mp hcl with rfl | hcl
    · rcases List.mem_append.mp hmem with hmem | hmem
      · exact hmem
      · exfalso
        rcases (mem_cleanMountainRanges area cs t x).mp hmem with ⟨e, he, hxe⟩
        exact hd e he hx (cleanCluster_subset area cs e x hxe)
    · rcases List.mem_append.mp hmem with hmem | hmem
      · exact absurd hx (hd cl hcl (cleanCluster_subset area cs d x hmem))
      · exact ih ht cl hcl x hx hmem

theorem getD_not_mem_eraseIdx :
    ∀ l : List ℕ, l.Nodup → ∀ p, p < l.length → l.getD p 0 ∉ l.eraseIdx p := by
  intro l
  induction l with
  | nil =>
    intro _ p hp
    simp at hp
  | cons a t ih =>
    intro hnd p hp
    rcases List.nodup_cons.mp hnd with ⟨ha, ht⟩
    cases p with
    | zero =>
      rw [List.getD_cons_zero, List.eraseIdx_cons_zero]
      exact ha
    | succ p =>
      have hplen : p < t.length := by
        simp only [List.length_cons] at hp
        omega
      rw [List.getD_cons_succ, List.eraseIdx_cons_succ]
      intro hmem
      rcases List.mem_cons.mp hmem with heq | hmem'
      · exact ha (heq ▸ getD_mem t p 0 hplen)
      · exact ih ht p hplen hmem'


theorem listMax_pair (x y : ℚ) : listMax [x, y] = max x y := by
  rw [listMax, List.foldl_cons, List.foldl_nil]

theorem maxAreaIdx_pair_left (area : ℕ → ℚ) (a b : ℕ) (h : area b ≤ area a) :
    maxAreaIdx area [a, b] = 0 := by
  rw [maxAreaIdx, List.map_cons, List.map_cons, List.map_nil, listMax_pair,
    max_eq_left h, List.indexOf_cons_self]

theorem maxAreaIdx_pair_right (area : ℕ → ℚ) (a b : ℕ) (h : area a < area b) :
    maxAreaIdx area [a, b] = 1 := by
  rw [maxAreaIdx, List.map_cons, List.map_cons, List.map_nil, listMax_pair,
    max_eq_right (le_of_lt h), List.indexOf_cons_ne _ (ne_of_lt h),
    List.indexOf_cons_self]

theorem maxArea_not_mem_cleanCluster (area : ℕ → ℚ) (cs : ℕ) (cl : List ℕ)
    (hnd : cl.Nodup) (hne : cl ≠ []) :
    cl.getD (maxAreaIdx area cl) 0 ∉ cleanCluster area cs cl := by
  by_cases h1 : cl.length = 2
  · rcases List.length_eq_two.mp h1 with ⟨a, b, rfl⟩
    have hab : a ≠ b := by
      intro h
      exact (List.nodup_cons.mp hnd).1 (by simp [h])
    rw [cleanCluster_len_two]
    split_ifs with h2 h3
    · rw [maxAreaIdx_pair_left area a b (le_of_lt h2), List.getD_cons_zero]
      intro hmem
      exact hab (List.mem_singleton.mp hmem)
    · rw [maxAreaIdx_pair_right area a b h3, List.getD_cons_succ, List.getD_cons_zero]
      intro hmem
      exact hab (List.mem_singleton.mp hmem).symm
    · exact List.not_mem_nil _
  · by_cases h2 : 2 < cl.length ∧ cl.length ≤ cs
    · rw [cleanCluster_mid area cs cl h2.1 h2.2]
      exact getD_not_mem_eraseIdx cl hnd _ (maxAreaIdx_lt_length area cl hne)
    · rw [cleanCluster_other area cs cl h1 h2]
      exact List.not_mem_nil _


/-- Claim C2 counterexample: with `cluster_size = 1` the cluster `[0, 1]`
    has size `2 > cluster_size`, yet `cleanMountainRanges` still removes
    peak `0` (the `len(mountains) == 2` branch runs regardless of
    `cluster_size`), so the claim fails for `cluster_size < 2`. -/
theorem claim_C2_counterexample :
    (1 : ℕ) < ([0, 1] : List ℕ).length ∧
      cleanMountainRanges (fun n => if n = 0 then 1 else 2) 1 [[0, 1]] = [0] := by
  constructor
  · norm_num
  · norm_num [cleanMountainRanges, cleanCluster]

/-- Claim C2 (amended).  Provided `cluster_size ≥ 2` (its documented
    domain; the CLI default is 3), a cluster strictly larger than
    `cluster_size` contributes nothing to the remove list, and — when the
    clusters are pairwise disjoint, as `findMountainRanges` produces them —
    none of its peaks is removed by `cleanMountainRanges`. -/
theorem claim_C2 (area : ℕ → ℚ) (cluster_size : ℕ) (M : List (List ℕ)) (cl : List ℕ)
    (h2 : 2 ≤ cluster_size) (hcl : cl ∈ M) (hbig : cluster_size < cl.length) :
    cleanCluster area cluster_size cl = [] ∧
      (M.Pairwise List.Disjoint →
        ∀ x ∈ cl, x ∉ cleanMountainRanges area cluster_size M) := by
  have he : cleanCluster area cluster_size cl = [] :=
    cleanCluster_other area cluster_size cl (by omega) (by omega)
  refine ⟨he, ?_⟩
  intro hdisj x hx hmem
  have := mem_cleanCluster_of_disjoint area cluster_size M hdisj cl hcl x hx hmem
  rw [he] at this
  exact absurd this (List.not_mem_nil x)

/-- Witness for claim C2 at `cluster_size = 2`, the single cluster
    `[0, 1, 2]` of size `3 > 2`, and constant areas. -/
theorem claim_C2_witness :
    (2 : ℕ) ≤ 2 ∧ ([0, 1, 2] : List ℕ) ∈ [[0, 1, 2]] ∧
      (2 : ℕ) < ([0, 1, 2] : List ℕ).length ∧
      (cleanCluster (fun _ => (1 : ℚ)) 2 [0, 1, 2] = [] ∧
        (([[0, 1, 2]] : List (List ℕ)).Pairwise List.Disjoint →
          ∀ x ∈ ([0, 1, 2] : List ℕ),
            x ∉ cleanMountainRanges (fun _ => (1 : ℚ)) 2 [[0, 1, 2]])) :=
  ⟨by norm_num, List.mem_singleton.mpr rfl, by norm_num,
    claim_C2 (fun _ => (1 : ℚ)) 2 [[0, 1, 2]] [0, 1, 2] (by norm_num)
      (List.mem_singleton.mpr rfl) (by norm_num)⟩

/-- Claim C3.  For a cluster of size in `[3, cluster_size]`, the resolver
    removes exactly the entries away from position `maxAreaIdx`, the first
    position achieving the maximum area (every earlier entry has strictly
    smaller area, every entry has area at most the one there); when the
    cluster has no duplicate indices and the clusters are pairwise
    disjoint, the max-area peak itself is never removed. -/
theorem claim_C3 (area : ℕ → ℚ) (cluster_size : ℕ) (M : List (List ℕ)) (cl : List ℕ)
    (hcl : cl ∈ M) (h3 : 3 ≤ cl.length) (hcs : cl.length ≤ cluster_size) :
    maxAreaIdx area cl < cl.length
    ∧ (∀ j, j < cl.length →
        area (cl.getD j 0) ≤ area (cl.getD (maxAreaIdx area cl) 0))
    ∧ (∀ j, j < maxAreaIdx area cl →
        area (cl.getD j 0) < area (cl.getD (maxAreaIdx area cl) 0))
    ∧ cleanCluster area cluster_size cl = cl.eraseIdx (maxAreaIdx area cl)
    ∧ (cl.Nodup → M.Pairwise List.Disjoint →
        cl.getD (maxAreaIdx area cl) 0 ∉ cleanMountainRanges area cluster_size M) := by
  have hne : cl ≠ [] := by
    intro h
    rw [h] at h3
    simp at h3
  have hmax := area_maxAreaIdx area cl hne
  refine ⟨maxAreaIdx_lt_length area cl hne, ?_, ?_, ?_, ?_⟩
  · intro j hj
    rw [hmax, getD_of_lt cl j 0 hj]
    refine le_listMax (cl.map area) _ ?_
    have hj2 : j < (cl.map area).length := by
      rw [List.length_map]
      exact hj
    rw [← List.getElem_map area]
    exact List.getElem_mem hj2
  · intro j hj
    rw [hmax]
    exact area_lt_of_lt_maxAreaIdx area cl j hj hne
  · exact cleanCluster_mid area cluster_size cl (by omega) hcs
  · intro hnd hdisj hmem
    have hin : cl.getD (maxAreaIdx area cl) 0 ∈ cl :=
      getD_mem cl _ 0 (maxAreaIdx_lt_length area cl hne)
    have := mem_cleanCluster_of_disjoint area cluster_size M hdisj cl hcl _ hin hmem
    exact maxArea_not_mem_cleanCluster area cluster_size cl hnd hne this

/-- Witness for claim C3: the cluster `[5, 6, 7]` with areas `1, 3, 2` and
    `cluster_size = 3`; the max-area peak is index 6 at position 1. -/
theorem claim_C3_witness :
    ([5, 6, 7] : List ℕ) ∈ [[5, 6, 7]] ∧ (3 : ℕ) ≤ ([5, 6, 7] : List ℕ).length ∧
      ([5, 6, 7] : List ℕ).length ≤ 3 ∧
      (maxAreaIdx (fun n => if n = 6 then 3 else if n = 7 then 2 else 1) [5, 6, 7] <
          ([5, 6, 7] : List ℕ).length
      ∧ (∀ j, j < ([5, 6, 7] : List ℕ).length →
          (fun n => if n = 6 then (3 : ℚ) else if n = 7 then 2 else 1)
              (([5, 6, 7] : List ℕ).getD j 0) ≤
            (fun n => if n = 6 then (3 : ℚ) else if n = 7 then 2 else 1)
              (([5, 6, 7] : List ℕ).getD
                (maxAreaIdx (fun n => if n = 6 then 3 else if n = 7 then 2 else 1) [5, 6, 7]) 0))
      ∧ (∀ j, j < maxAreaIdx (fun n => if n = 6 then 3 else if n = 7 then 2 else 1) [5, 6, 7] →
          (fun n => if n = 6 then (3 : ℚ) else if n = 7 then 2 else 1)
              (([5, 6, 7] : List ℕ).getD j 0) <
            (fun n => if n = 6 then (3 : ℚ) else if n = 7 then 2 else 1)
              (([5, 6, 7] : List ℕ).getD
                (maxAreaIdx (fun n => if n = 6 then 3 else if n = 7 then 2 else 1) [5, 6, 7]) 0))
      ∧ cleanCluster (fun n => if n = 6 then 3 else if n = 7 then 2 else 1) 3 [5, 6, 7] =
          ([5, 6, 7] : List ℕ).eraseIdx
            (maxAreaIdx (fun n => if n = 6 then 3 else if n = 7 then 2 else 1) [5, 6, 7])
      ∧ (([5, 6, 7] : List ℕ).Nodup → ([[5, 6, 7]] : List (List ℕ)).Pairwise List.Disjoint →
          ([5, 6, 7] : List ℕ).getD
              (maxAreaIdx (fun n => if n = 6 then 3 else if n = 7 then 2 else 1) [5, 6, 7]) 0 ∉
            cleanMountainRanges (fun n => if n = 6 then 3 else if n = 7 then 2 else 1) 3
              [[5, 6, 7]])) :=
  ⟨List.mem_singleton.mpr rfl, by norm_num, by norm_num,
    claim_C3 (fun n => if n = 6 then 3 else if n = 7 then 2 else 1) 3 [[5, 6, 7]] [5, 6, 7]
      (List.mem_singleton.mpr rfl) (by norm_num) (by norm_num)⟩

/-- Claim C4.  For a two-peak cluster `[i, j]`, the resolver removes
    exactly the peak with the strictly smaller area (which then appears in
    the remove list of `cleanMountainRanges`), and removes neither when the
    two areas are exactly equal. -/
theorem claim_C4 (area : ℕ → ℚ) (cluster_size : ℕ) (M : List (List ℕ)) (i j : ℕ)
    (hM : [i, j] ∈ M) :
    (area j < area i →
      cleanCluster area cluster_size [i, j] = [j] ∧
        j ∈ cleanMountainRanges area cluster_size M)
    ∧ (area i < area j →
      cleanCluster area cluster_size [i, j] = [i] ∧
        i ∈ cleanMountainRanges area cluster_size M)
    ∧ (area i = area j → cleanCluster area cluster_size [i, j] = []) := by
  refine ⟨?_, ?_, ?_⟩
  · intro h
    have he : cleanCluster area cluster_size [i, j] = [j] := by
      rw [cleanCluster_len_two, if_pos h]
    exact ⟨he, (mem_cleanMountainRanges area cluster_size M j).mpr
      ⟨[i, j], hM, by rw [he]; exact List.mem_singleton.mpr rfl⟩⟩
  · intro h
    have he : cleanCluster area cluster_size [i, j] = [i] := by
      rw [cleanCluster_len_two, if_neg (by exact not_lt.mpr (le_of_lt h)), if_pos h]
    exact ⟨he, (mem_cleanMountainRanges area cluster_size M i).mpr
      ⟨[i, j], hM, by rw [he]; exact List.mem_singleton.mpr rfl⟩⟩
  · intro h
    rw [cleanCluster_len_two, if_neg (by rw [h]; exact lt_irrefl _),
      if_neg (by rw [h]; exact lt_irrefl _)]

/-- Witness for claim C4: the pair cluster `[0, 1]` with areas `1, 2`. -/
theorem claim_C4_witness :
    ([0, 1] : List ℕ) ∈ [[0, 1]] ∧
      (((fun n => if n = 0 then (1 : ℚ) else 2) 1 < (fun n => if n = 0 then (1 : ℚ) else 2) 0 →
        cleanCluster (fun n => if n = 0 then (1 : ℚ) else 2) 3 [0, 1] = [1] ∧
          1 ∈ cleanMountainRanges (fun n => if n = 0 then (1 : ℚ) else 2) 3 [[0, 1]])
      ∧ ((fun n => if n = 0 then (1 : ℚ) else 2) 0 < (fun n => if n = 0 then (1 : ℚ) else 2) 1 →
        cleanCluster (fun n => if n = 0 then (1 : ℚ) else 2) 3 [0, 1] = [0] ∧
          0 ∈ cleanMountainRanges (fun n => if n = 0 then (1 : ℚ) else 2) 3 [[0, 1]])
      ∧ ((fun n => if n = 0 then (1 : ℚ) else 2) 0 = (fun n => if n = 0 then (1 : ℚ) else 2) 1 →
        cleanCluster (fun n => if n = 0 then (1 : ℚ) else 2) 3 [0, 1] = [])) :=
  ⟨List.mem_singleton.mpr rfl,
    claim_C4 (fun n => if n = 0 then (1 : ℚ) else 2) 3 [[0, 1]] 0 1
      (List.mem_singleton.mpr rfl)⟩

/-- Claim C9 counterexample: in the cluster `[0, 1, 2]` with areas
    `5, 5, 3` (`cluster_size = 3`), the remove list is `[1, 2]`, and the
    removed index `1` has area `5`, equal to the maximum area of its
    cluster — so the remove list does contain an index whose area equals
    the cluster's maximum (only the first max-area occurrence is spared). -/
theorem claim_C9_counterexample :
    cleanMountainRanges (fun n => if n ≤ 1 then 5 else 3) 3 [[0, 1, 2]] = [1, 2] ∧
      (fun n => if n ≤ 1 then (5 : ℚ) else 3) 1 =
        listMax (([0, 1, 2] : List ℕ).map (fun n => if n ≤ 1 then (5 : ℚ) else 3)) := by
  constructor
  · norm_num [cleanMountainRanges, cleanCluster, maxAreaIdx, listMax]
  · norm_num [listMax]

/-- Claim C9 (amended).  For pairwise-disjoint, duplicate-free clusters,
    the remove list of `cleanMountainRanges` never contains the index
    sitting at a cluster's first max-area position, so every nonempty
    cluster — hence every sample — retains at least one peak after
    `RemoveArtefacts` drops the remove list. -/
theorem claim_C9 (area : ℕ → ℚ) (cluster_size : ℕ) (M : List (List ℕ))
    (hdisj : M.Pairwise List.Disjoint) (hnd : ∀ cl ∈ M, cl.Nodup)
    (cl : List ℕ) (hcl : cl ∈ M) (hne : cl ≠ []) :
    cl.getD (maxAreaIdx area cl) 0 ∈ cl
    ∧ cl.getD (maxAreaIdx area cl) 0 ∉ cleanMountainRanges area cluster_size M
    ∧ (∀ labels : List ℕ, cl.getD (maxAreaIdx area cl) 0 ∈ labels →
        cl.getD (maxAreaIdx area cl) 0 ∈
          RemoveArtefacts labels (cleanMountainRanges area cluster_size M)) := by
  have hin : cl.getD (maxAreaIdx area cl) 0 ∈ cl :=
    getD_mem cl _ 0 (maxAreaIdx_lt_length area cl hne)
  have hnotmem : cl.getD (maxAreaIdx area cl) 0 ∉ cleanMountainRanges area cluster_size M := by
    intro hmem
    have := mem_cleanCluster_of_disjoint area cluster_size M hdisj cl hcl _ hin hmem
    exact maxArea_not_mem_cleanCluster area cluster_size cl (hnd cl hcl) hne this
  refine ⟨hin, hnotmem, ?_⟩
  intro labels hlab
  rw [RemoveArtefacts]
  refine List.mem_filter.mpr ⟨hlab, ?_⟩
  simpa using hnotmem


/-- Witness for claim C9: the single pair cluster `[0, 1]` with areas
    `0, 1`; the max-area index `1` survives. -/
theorem claim_C9_witness :
    ([[0, 1]] : List (List ℕ)).Pairwise List.Disjoint ∧
      (∀ cl ∈ ([[0, 1]] : List (List ℕ)), cl.Nodup) ∧
      ([0, 1] : List ℕ) ∈ [[0, 1]] ∧ ([0, 1] : List ℕ) ≠ [] ∧
      (([0, 1] : List ℕ).getD (maxAreaIdx (fun n => (n : ℚ)) [0, 1]) 0 ∈ ([0, 1] : List ℕ)
      ∧ ([0, 1] : List ℕ).getD (maxAreaIdx (fun n => (n : ℚ)) [0, 1]) 0 ∉
          cleanMountainRanges (fun n => (n : ℚ)) 3 [[0, 1]]
      ∧ (∀ labels : List ℕ,
          ([0, 1] : List ℕ).getD (maxAreaIdx (fun n => (n : ℚ)) [0, 1]) 0 ∈ labels →
          ([0, 1] : List ℕ).getD (maxAreaIdx (fun n => (n : ℚ)) [0, 1]) 0 ∈
            RemoveArtefacts labels (cleanMountainRanges (fun n => (n : ℚ)) 3 [[0, 1]]))) :=
  ⟨List.pairwise_singleton _ _, by
      intro cl hcl
      rw [List.mem_singleton.mp hcl]
      decide,
    List.mem_singleton.mpr rfl, by decide,
    claim_C9 (fun n => (n : ℚ)) 3 [[0, 1]] (List.pairwise_singleton _ _)
      (by
        intro cl hcl
        rw [List.mem_singleton.mp hcl]
        decide)
      [0, 1] (List.mem_singleton.mpr rfl) (by decide)⟩

theorem pyRound_sub_le (q : ℚ) : |((pyRound q : ℤ) : ℚ) - q| ≤ 1 / 2 := by
  have h1 : ((⌊q⌋ : ℤ) : ℚ) ≤ q := Int.floor_le q
  have h2 : q < ⌊q⌋ + 1 := Int.lt_floor_add_one q
  rw [pyRound]
  split_ifs with ha hb hc
  · rw [abs_le]
    constructor <;> [linarith; linarith]
  · rw [abs_le]
    push_cast
    constructor <;> [linarith; linarith]
  · rw [abs_le]
    constructor <;> [linarith; linarith]
  · rw [abs_le]
    push_cast
    constructor <;> [linarith; linarith]

theorem sum_pyRound_sub_le :
    ∀ l : List ℚ,
      |(l.map (fun q => ((pyRound q : ℤ) : ℚ))).sum - l.sum| ≤ (l.length : ℚ) / 2 := by
  intro l
  induction l with
  | nil => simp
  | cons x t ih =>
    rw [List.map_cons, List.sum_cons, List.sum_cons, List.length_cons]
    have h1 := pyRound_sub_le x
    have h3 : |((pyRound x : ℤ) : ℚ) + (t.map (fun q => ((pyRound q : ℤ) : ℚ))).sum
        - (x + t.sum)|
        ≤ |((pyRound x : ℤ) : ℚ) - x|
          + |(t.map (fun q => ((pyRound q : ℤ) : ℚ))).sum - t.sum| := by
      have heq : ((pyRound x : ℤ) : ℚ) + (t.map (fun q => ((pyRound q : ℤ) : ℚ))).sum
          - (x + t.sum)
          = (((pyRound x : ℤ) : ℚ) - x)
            + ((t.map (fun q => ((pyRound q : ℤ) : ℚ))).sum - t.sum) := by
        ring
      rw [heq]
      exact abs_add _ _
    have h4 : ((t.length + 1 : ℕ) : ℚ) / 2 = 1 / 2 + (t.length : ℚ) / 2 := by
      push_cast
      ring
    rw [h4]
    exact le_trans h3 (add_le_add h1 ih)

theorem sum_shares (l : List ℚ) (h : l.sum ≠ 0) :
    (l.map (fun a => a / l.sum * 100)).sum = 100 := by
  have h1 : l.map (fun a => a / l.sum * 100) = l.map (fun a => a * (100 / l.sum)) :=
    List.map_congr_left (fun a _ => by ring)
  rw [h1, List.sum_map_mul_right]
  simp only [List.map_id']
  rw [mul_comm, div_mul_cancel₀ _ h]

theorem AddPercentage_nil (df : List PeakRow) : AddPercentage df [] = [] := rfl

theorem AddPercentage_cons (df : List PeakRow) (n0 : String) (rest : List String) :
    AddPercentage df (n0 :: rest) =
      ((df.filter (fun r => r.name == n0)).map (fun r =>
        (⟨r.name, r.size, r.height, r.area, pyRound (r.area /
          ((df.filter (fun r => r.name == n0)).map (fun r => r.area)).sum * 100)⟩ : OutRow)))
        ++ AddPercentage df rest := rfl

theorem mem_AddPercentage_name (df : List PeakRow) :
    ∀ names : List String, ∀ r' ∈ AddPercentage df names, r'.name ∈ names := by
  intro names
  induction names with
  | nil =>
    intro r' h
    rw [AddPercentage_nil] at h
    exact absurd h (List.not_mem_nil r')
  | cons n0 rest ih =>
    intro r' hr'
    rw [AddPercentage_cons] at hr'
    rcases List.mem_append.mp hr' with h | h
    · rcases List.mem_map.mp h with ⟨r, hr, rfl⟩
      have hname : r.name = n0 := by
        have := (List.mem_filter.mp hr).2
        exact beq_iff_eq.mp this
      exact List.mem_cons.mpr (Or.inl hname)
    · exact List.mem_cons_of_mem n0 (ih r' h)

theorem filter_AddPercentage (df : List PeakRow) :
    ∀ (names : List String) (nm : String), nm ∈ names → names.Nodup →
      (AddPercentage df names).filter (fun r' => r'.name == nm) =
        (df.filter (fun r => r.name == nm)).map (fun r =>
          (⟨r.name, r.size, r.height, r.area, pyRound (r.area /
            ((df.filter (fun r => r.name == nm)).map (fun r => r.area)).sum * 100)⟩ : OutRow)) := by
  intro names
  induction names with
  | nil =>
    intro nm h
    exact absurd h (List.not_mem_nil nm)
  | cons n0 rest ih =>
    intro nm hnm hnd
    rw [AddPercentage_cons, List.filter_append]
    rcases List.mem_cons.mp hnm with rfl | hmem
    · have h1 : ((df.filter (fun r => r.name == nm)).map (fun r =>
          (⟨r.name, r.size, r.height, r.area, pyRound (r.area /
            ((df.filter (fun r => r.name == nm)).map (fun r => r.area)).sum * 100)⟩
            : OutRow))).filter (fun r' => r'.name == nm)
          = (df.filter (fun r => r.name == nm)).map (fun r =>
            (⟨r.name, r.size, r.height, r.area, pyRound (r.area /
              ((df.filter (fun r => r.name == nm)).map (fun r => r.area)).sum * 100)⟩
              : OutRow)) := by
        refine List.filter_eq_self.mpr ?_
        intro r' hr'
        rcases List.mem_map.mp hr' with ⟨r, hr, rfl⟩
        exact (List.mem_filter.mp hr).2
      have h2 : (AddPercentage df rest).filter (fun r' => r'.name == nm) = [] := by
        refine List.filter_eq_nil_iff.mpr ?_
        intro r' hr' hbeq
        have h3 : r'.name ∈ rest := mem_AddPercentage_name df rest r' hr'
        have h4 : r'.name = nm := beq_iff_eq.mp hbeq
        exact (List.nodup_cons.mp hnd).1 (h4 ▸ h3)
      rw [h1, h2, List.append_nil]
    · have hne : n0 ≠ nm := by
        intro h
        exact (List.nodup_cons.mp hnd).1 (h ▸ hmem)
      have h1 : ((df.filter (fun r => r.name == n0)).map (fun r =>
          (⟨r.name, r.size, r.height, r.area, pyRound (r.area /
            ((df.filter (fun r => r.name == n0)).map (fun r => r.area)).sum * 100)⟩
            : OutRow))).filter (fun r' => r'.name == nm) = [] := by
        refine List.filter_eq_nil_iff.mpr ?_
        intro r' hr' hbeq
        rcases List.mem_map.mp hr' with ⟨r, hr, rfl⟩
        have h3 : r.name = n0 := beq_iff_eq.mp (List.mem_filter.mp hr).2
        have h4 : r.name = nm := beq_iff_eq.mp hbeq
        exact hne (h3 ▸ h4)
      rw [h1, List.nil_append]
      exact ih nm hmem (List.nodup_cons.mp hnd).2


/-- Claim C6 counterexample: a sample of three peaks with equal areas and
    positive total area gets percentages `33, 33, 33` (integer rounding of
    `int(round(100/3))`), whose sum is `99`, not `100`; the threshold filter
    at `0` keeps all three rows.  The integer percentages make the claimed
    floating-tolerance identity fail by a whole unit. -/
theorem claim_C6_counterexample :
    ((filterAreaPercent
        (AddPercentage [⟨"S", 1, 1, 1⟩, ⟨"S", 2, 1, 1⟩, ⟨"S", 3, 1, 1⟩] ["S"]) 0).map
        (fun r => r.percentage)).sum = 99 ∧
      (filterAreaPercent
        (AddPercentage [⟨"S", 1, 1, 1⟩, ⟨"S", 2, 1, 1⟩, ⟨"S", 3, 1, 1⟩] ["S"]) 0).length = 3 := by
  constructor
  · rw [filterAreaPercent]
    rw [List.Perm.sum_eq (List.Perm.map (fun r => r.percentage)
      (List.mergeSort_perm _ rowLe))]
    norm_num [AddPercentage, pyRound, List.filter]
  · rw [filterAreaPercent, List.length_mergeSort]
    norm_num [AddPercentage, pyRound, List.filter]

/-- Claim C6 (amended).  For a sample with positive retained total area,
    the sum of the integer percentages `AddPercentage` assigns to the
    sample's rows differs from `100` by at most half the number of the
    sample's rows (each row's banker-rounded percentage is within `1/2` of
    its exact share, and the exact shares sum to exactly `100`).  The sum
    is not in general equal to `100`. -/
theorem claim_C6 (df : List PeakRow) (sample_names : List String) (nm : String)
    (hnm : nm ∈ sample_names) (hnd : sample_names.Nodup)
    (hpos : 0 < ((df.filter (fun r => r.name == nm)).map (fun r => r.area)).sum) :
    |((((AddPercentage df sample_names).filter (fun r' => r'.name == nm)).map
        (fun r' => (r'.percentage : ℚ))).sum - 100)|
      ≤ ((df.filter (fun r => r.name == nm)).length : ℚ) / 2 := by
  rw [filter_AddPercentage df sample_names nm hnm hnd]
  rw [List.map_map]
  have hcomp :
      ((fun r' : OutRow => (r'.percentage : ℚ)) ∘ fun r : PeakRow =>
        (⟨r.name, r.size, r.height, r.area, pyRound (r.area /
          ((df.filter (fun r => r.name == nm)).map (fun r => r.area)).sum * 100)⟩ : OutRow))
      = fun r : PeakRow => ((pyRound (r.area /
          ((df.filter (fun r => r.name == nm)).map (fun r => r.area)).sum * 100) : ℤ) : ℚ) :=
    rfl
  rw [hcomp]
  have hmm : (df.filter (fun r => r.name == nm)).map (fun r : PeakRow =>
      ((pyRound (r.area /
        ((df.filter (fun r => r.name == nm)).map (fun r => r.area)).sum * 100) : ℤ) : ℚ))
      = (((df.filter (fun r => r.name == nm)).map (fun r => r.area)).map
          (fun a => a / ((df.filter (fun r => r.name == nm)).map (fun r => r.area)).sum * 100)).map
        (fun q => ((pyRound q : ℤ) : ℚ)) := by
    rw [List.map_map, List.map_map]
    rfl
  rw [hmm]
  have hsum : (((df.filter (fun r => r.name == nm)).map (fun r => r.area)).map
      (fun a => a / ((df.filter (fun r => r.name == nm)).map (fun r => r.area)).sum * 100)).sum
      = 100 :=
    sum_shares ((df.filter (fun r => r.name == nm)).map (fun r => r.area)) (ne_of_gt hpos)
  have hb := sum_pyRound_sub_le (((df.filter (fun r => r.name == nm)).map (fun r => r.area)).map
      (fun a => a / ((df.filter (fun r => r.name == nm)).map (fun r => r.area)).sum * 100))
  rw [hsum] at hb
  have hlen : ((((df.filter (fun r => r.name == nm)).map (fun r => r.area)).map
      (fun a => a / ((df.filter (fun r => r.name == nm)).map (fun r => r.area)).sum * 100)).length : ℚ)
      = ((df.filter (fun r => r.name == nm)).length : ℚ) := by
    rw [List.length_map, List.length_map]
  rw [hlen] at hb
  exact hb

/-- Witness for claim C6: sample `"S"` with areas `1` and `3`; the
    percentage sum `25 + 75 = 100` is within `2/2` of `100`. -/
theorem claim_C6_witness :
    "S" ∈ ["S"] ∧ (["S"] : List String).Nodup ∧
      (0 : ℚ) < ((([⟨"S", 1, 1, 1⟩, ⟨"S", 2, 1, 3⟩] : List PeakRow).filter
          (fun r => r.name == "S")).map (fun r => r.area)).sum ∧
      |((((AddPercentage [⟨"S", 1, 1, 1⟩, ⟨"S", 2, 1, 3⟩] ["S"]).filter
          (fun r' => r'.name == "S")).map (fun r' => (r'.percentage : ℚ))).sum - 100)|
        ≤ ((([⟨"S", 1, 1, 1⟩, ⟨"S", 2, 1, 3⟩] : List PeakRow).filter
            (fun r => r.name == "S")).length : ℚ) / 2 :=
  ⟨List.mem_singleton.mpr rfl, List.nodup_singleton _, by norm_num [List.filter],
    claim_C6 [⟨"S", 1, 1, 1⟩, ⟨"S", 2, 1, 3⟩] ["S"] "S" (List.mem_singleton.mpr rfl)
      (List.nodup_singleton _) (by norm_num [List.filter])⟩


theorem rowLe_trans (a b c : OutRow) (hab : rowLe a b = true) (hbc : rowLe b c = true) :
    rowLe a c = true := by
  simp only [rowLe, Bool.or_eq_true, Bool.and_eq_true, decide_eq_true_eq,
    beq_iff_eq] at hab hbc ⊢
  rcases hab with hab | ⟨hab1, hab2⟩
  · rcases hbc with hbc | ⟨hbc1, hbc2⟩
    · exact Or.inl (lt_trans hab hbc)
    · exact Or.inl (hbc1 ▸ hab)
  · rcases hbc with hbc | ⟨hbc1, hbc2⟩
    · exact Or.inl (hab1 ▸ hbc)
    · exact Or.inr ⟨hab1.trans hbc1, le_trans hab2 hbc2⟩

theorem rowLe_total (a b : OutRow) : (rowLe a b || rowLe b a) = true := by
  simp only [rowLe, Bool.or_eq_true, Bool.and_eq_true, decide_eq_true_eq, beq_iff_eq]
  rcases lt_trichotomy a.name b.name with h | h | h
  · exact Or.inl (Or.inl h)
  · rcases le_total a.size b.size with hs | hs
    · exact Or.inl (Or.inr ⟨h, hs⟩)
    · exact Or.inr (Or.inr ⟨h.symm, hs⟩)
  · exact Or.inr (Or.inl h)

/-- Claim C7.  `filterAreaPercent` keeps a row exactly when its integer
    `Percentage` is at least `filter_threshold` (a row equal to the
    threshold is kept), and its output is sorted by sample name then size,
    ascending. -/
theorem claim_C7 (df_out : List OutRow) (filter_threshold : ℚ) :
    (∀ r : OutRow, r ∈ filterAreaPercent df_out filter_threshold ↔
      (r ∈ df_out ∧ filter_threshold ≤ (r.percentage : ℚ)))
    ∧ (filterAreaPercent df_out filter_threshold).Pairwise
        (fun a b => a.name < b.name ∨ (a.name = b.name ∧ a.size ≤ b.size)) := by
  constructor
  · intro r
    rw [filterAreaPercent, List.mem_mergeSort, List.mem_filter, decide_eq_true_eq]
  · refine List.Pairwise.imp ?_
      (List.sorted_mergeSort rowLe_trans rowLe_total
        (df_out.filter (fun r => decide (filter_threshold ≤ (r.percentage : ℚ)))))
    intro a b h
    simpa only [rowLe, Bool.or_eq_true, Bool.and_eq_true, decide_eq_true_eq,
      beq_iff_eq] using h

/-- Claim C8.  On an input whose columns are
    `Sample File Name, Size, Height` (column `Area` missing), `loadDf`
    fails before any clustering can run — but with an uncaught pandas
    `KeyError` from the `astype` dtype mapping naming `Area`, not with the
    explicit schema error; indeed the explicit expected-versus-found schema
    report is unreachable for every input: each required column is already
    demanded by `sort_values`/`astype` before the check runs. -/
theorem claim_C8 :
    loadDf ["Sample File Name", "Size", "Height"] = .error (.keyError ["Area"])
    ∧ ∀ cols : List String, isSchemaError (loadDf cols) = false := by
  constructor
  · rfl
  · intro cols
    simp only [loadDf]
    split_ifs with h1 h2 h3
    · rfl
    · rfl
    · rfl
    · cases hf : expectedColumns.find? (fun c => !cols.contains c) with
      | none => rfl
      | some col =>
        exfalso
        have h4 := List.find?_some hf
        have h5 : col ∈ expectedColumns := List.mem_of_find?_eq_some hf
        apply h3
        have hnil : expectedColumns.filter (fun c => !cols.contains c) ≠ [] := by
          intro hnil
          exact (List.filter_eq_nil_iff.mp hnil col h5) h4
        rcases Bool.eq_false_or_eq_true
          ((expectedColumns.filter (fun c => !cols.contains c)).isEmpty) with h | h
        · exact absurd (List.isEmpty_iff.mp h) hnil
        · rw [h]
          rfl

end GeneScanner
